import Mathlib

/-!
Verification of the `PowerCache` in-process cache engine (a Go library).

The embedding below is a shallow, executable translation of the source:

* Go `map[string]T` becomes an association list (`AssocMap`) whose list
  order stands in for one fixed iteration order (Go's map iteration order
  is unspecified; the claims settled here do not depend on it, and where a
  claim is about counts the proofs go through for the order fixed here).
* `time.Time` and `time.Duration` both become `Int` (nanoseconds since an
  epoch / a signed nanosecond count, exactly as in Go where both are
  int64-based).  `t.After(u)` is `u < t`, `t.Add(d)` is `t + d`,
  `t.Sub(u)` is `t - u`, and the zero `time.Time` / `emptyDuration` is `0`.
* Each cache method that consults the wall clock takes the current time
  `now : Int` as an explicit argument; successive `time.Now()` calls inside
  one method are modelled as returning the same instant.
* `float64` arithmetic inside the eviction scoring becomes exact rational
  arithmetic over unnormalised `Int` fractions (`Frac`).  Division by zero
  yields a zero-denominator fraction whose comparisons are `false`, like
  NaN comparisons in Go.  No claim settled here depends on floating-point
  rounding.
* The value loader `func(string) (interface{}, error)` becomes
  `Key → Except ε α`; a `nil` Go error is `Except.ok`.
* The sentinel `ErrNotPresent` result of `GetIfPresent` is modelled by
  `Option.none`, and the loader-error propagation of `GetWithValueLoader`
  by `Except.error`.
-/

abbrev Key := String

/-- Association-list model of a Go `map[string]β`; the list order models
one fixed iteration order. -/
abbrev AssocMap (β : Type) := List (Key × β)

/-- Map lookup, `m[k]` with its `ok` flag: `some v` when present. -/
def lookupKey {β : Type} : AssocMap β → Key → Option β
  | [], _ => none
  | (k, v) :: rest, key => if k == key then some v else lookupKey rest key

/-- Map lookup returning the Go zero value `d` for an absent key. -/
def lookupD {β : Type} (m : AssocMap β) (key : Key) (d : β) : β :=
  (lookupKey m key).getD d

/-- Map store `m[k] = v`: updates in place when the key is present,
appends otherwise. -/
def insertKey {β : Type} : AssocMap β → Key → β → AssocMap β
  | [], key, v => [(key, v)]
  | (k, w) :: rest, key, v =>
    if k == key then (k, v) :: rest else (k, w) :: insertKey rest key v

/-- Go `delete(m, k)`: removes the entry when present, no-op otherwise. -/
def eraseKey {β : Type} : AssocMap β → Key → AssocMap β
  | [], _ => []
  | (k, w) :: rest, key =>
    if k == key then rest else (k, w) :: eraseKey rest key

/-- The key list of a map (its iteration order). -/
def keysOf {β : Type} (m : AssocMap β) : List Key := m.map Prod.fst

/-- Exact-rational stand-in for the `float64` values used by the eviction
scoring: an unnormalised fraction of machine integers. -/
structure Frac where
  num : Int
  den : Int

/-- Conversion `float64(n)` of an integer. -/
def Frac.ofInt (n : Int) : Frac := ⟨n, 1⟩

/-- Exact division; a zero divisor yields a zero-denominator fraction
(the NaN/Inf case in Go, see `Frac.blt`). -/
def Frac.div (x y : Frac) : Frac := ⟨x.num * y.den, x.den * y.num⟩

def Frac.mul (x y : Frac) : Frac := ⟨x.num * y.num, x.den * y.den⟩

def Frac.add (x y : Frac) : Frac :=
  ⟨x.num * y.den + y.num * x.den, x.den * y.den⟩

/-- Strict comparison with rational semantics; any comparison involving a
zero denominator is `false` (as Go comparisons involving NaN are). -/
def Frac.blt (x y : Frac) : Bool :=
  decide ((x.num * y.den) * (x.den * y.den).sign
            < (y.num * x.den) * (x.den * y.den).sign)

/-- The literal `0.5`. -/
def Frac.half : Frac := ⟨1, 2⟩

/-- The `PowerCache` struct.  `ε` is the loader error type, `α` the stored
value type (`interface{}` in the source).  The `sync.Mutex` is not
modelled: every operation is a single atomic state transition, which is
exactly the atomicity the lock provides. -/
structure PowerCache (ε α : Type) where
  ValueLoader : Key → Except ε α
  ExpiresAfterAccessDuration : Int
  ExpiresAfterWriteDuration : Int
  PeriodicMaintenance : Int
  MaxKeys : Int
  MaxWeight : Int
  MaxSize : Int
  DefaultValueWeight : Int
  values : AssocMap α
  tstamp : AssocMap Int
  weight : AssocMap Int
  cacheSizeEst : Int
  nextClean : Int
  statLoadCount : Int
  statLoadDur : Int
  statHits : Int
  statReqs : Int
  statEvictions : Int

/-- `Initialize`. -/
def Initialize {ε α : Type} (c : PowerCache ε α) (now : Int) : PowerCache ε α :=
  let c1 := { c with values := ([] : AssocMap α), tstamp := ([] : AssocMap Int),
                     weight := ([] : AssocMap Int) }
  let c2 := if c1.DefaultValueWeight == 0 then { c1 with DefaultValueWeight := 1 } else c1
  let c3 := if c2.PeriodicMaintenance != 0 then
      { c2 with nextClean := now + c2.PeriodicMaintenance } else c2
  { c3 with statLoadCount := 0, statHits := 0, statReqs := 0, statEvictions := 0 }

/-- `Length`. -/
def Length {ε α : Type} (c : PowerCache ε α) : Nat := c.values.length

/-- The `shouldClean` flag computed by `cleanUpIfNeccissary`: the OR of the
three trigger conditions exactly as the source writes them (note the
periodic condition is `c.nextClean.After(time.Now())`, i.e. `now <
nextClean`). -/
def shouldClean {ε α : Type} (c : PowerCache ε α) (now : Int) : Bool :=
  ((c.PeriodicMaintenance != 0) && decide (now < c.nextClean))
  || ((c.MaxKeys != 0) && decide (c.MaxKeys ≤ (c.values.length : Int)))
  || ((c.MaxSize != 0) && decide (c.MaxSize ≤ c.cacheSizeEst))

/-- `isKeyExpired`. -/
def isKeyExpired {ε α : Type} (c : PowerCache ε α) (now : Int) (key : Key) : Bool :=
  (if c.ExpiresAfterAccessDuration != 0 then
     match lookupKey c.tstamp key with
     | some a => decide (a + c.ExpiresAfterAccessDuration < now)
     | none => false
   else false)
  || (if c.ExpiresAfterWriteDuration != 0 then
     match lookupKey c.tstamp key with
     | some w => decide (w + c.ExpiresAfterWriteDuration < now)
     | none => false
   else false)

/-- `Invalidate`. -/
def Invalidate {ε α : Type} (c : PowerCache ε α) (key : Key) : PowerCache ε α :=
  { c with values := eraseKey c.values key, tstamp := eraseKey c.tstamp key,
           weight := eraseKey c.weight key, statEvictions := c.statEvictions + 1 }

/-- `InvalidateAll`. -/
def InvalidateAll {ε α : Type} (c : PowerCache ε α) : PowerCache ε α :=
  { c with statEvictions := c.statEvictions + (c.values.length : Int),
           values := ([] : AssocMap α), tstamp := ([] : AssocMap Int),
           weight := ([] : AssocMap Int) }

/-- The conditional on the `CleanUp` scoring path that selects the
deadline-remaining age normalisation, exactly as the source writes it:
`c.ExpiresAfterAccessDuration != emptyDuration ||
c.ExpiresAfterAccessDuration != emptyDuration` (the same field twice). -/
def scoreDeadlineBranch {ε α : Type} (c : PowerCache ε α) : Bool :=
  (c.ExpiresAfterAccessDuration != 0) || (c.ExpiresAfterAccessDuration != 0)

/-- The loop state of the `CleanUp` scan: the cache being mutated, the
running worst candidate `aKey`/`aWeight`/`aTstamp` (Go zero values `""`,
`0`, `0`), and whether the loop has executed `break`. -/
structure ScanSt (ε α : Type) where
  c : PowerCache ε α
  aKey : Key
  aWeight : Int
  aTstamp : Int
  broke : Bool

/-- One iteration of the `CleanUp` range loop for key `k`. -/
def cleanUpStep {ε α : Type} (now : Int) (s : ScanSt ε α) (k : Key) : ScanSt ε α :=
  if s.broke then s else
  let c := s.c
  if ((c.ExpiresAfterWriteDuration != 0) || (c.ExpiresAfterAccessDuration != 0))
      && decide (lookupD c.tstamp k 0 < now) then
    let c2 : PowerCache ε α :=
      { c with values := eraseKey c.values k, tstamp := eraseKey c.tstamp k,
               weight := eraseKey c.weight k, statEvictions := c.statEvictions + 1 }
    if (c2.MaxSize != 0) || (c2.MaxKeys != 0) then
      { s with c := c2, broke := true }
    else
      { s with c := c2 }
  else if s.aKey == "" then
    { s with aKey := k, aWeight := lookupD c.weight k 0, aTstamp := lookupD c.tstamp k 0 }
  else
    let kW := lookupD c.weight k 0
    let kT := lookupD c.tstamp k 0
    let mWeight := if s.aWeight < kW then kW else s.aWeight
    let awf := Frac.div (Frac.ofInt s.aWeight) (Frac.ofInt mWeight)
    let bwf := Frac.div (Frac.ofInt kW) (Frac.ofInt mWeight)
    let ab : Frac × Frac :=
      if scoreDeadlineBranch c then
        let mT := if s.aTstamp < kT then kT else s.aTstamp
        (Frac.div (Frac.ofInt (s.aTstamp - now)) (Frac.ofInt (mT - now)),
         Frac.div (Frac.ofInt (kT - now)) (Frac.ofInt (mT - now)))
      else
        let ad := now - s.aTstamp
        let bd := now - kT
        let md := if ad < bd then bd else ad
        (Frac.div (Frac.ofInt 1) (Frac.div (Frac.ofInt ad) (Frac.ofInt md)),
         Frac.div (Frac.ofInt 1) (Frac.div (Frac.ofInt bd) (Frac.ofInt md)))
    let ascore := Frac.add (Frac.mul awf Frac.half) (Frac.mul ab.1 Frac.half)
    let bscore := Frac.add (Frac.mul bwf Frac.half) (Frac.mul ab.2 Frac.half)
    if Frac.blt bscore ascore then
      { s with aKey := k, aWeight := kW, aTstamp := kT }
    else s

/-- `CleanUp`: the bounded expiry sweep plus unconditional final candidate
removal, then rescheduling of periodic maintenance. -/
def CleanUp {ε α : Type} (c : PowerCache ε α) (now : Int) : PowerCache ε α :=
  let s := List.foldl (cleanUpStep now) ⟨c, "", 0, 0, false⟩ (keysOf c.values)
  let c2 := s.c
  let c3 : PowerCache ε α :=
    { c2 with values := eraseKey c2.values s.aKey, tstamp := eraseKey c2.tstamp s.aKey,
              weight := eraseKey c2.weight s.aKey, statEvictions := c2.statEvictions + 1 }
  if c3.PeriodicMaintenance != 0 then { c3 with nextClean := now + c3.PeriodicMaintenance }
  else c3

/-- `cleanUpIfNeccissary` (spelling as in the source). -/
def cleanUpIfNeccissary {ε α : Type} (c : PowerCache ε α) (now : Int) : PowerCache ε α :=
  if shouldClean c now then CleanUp c now else c

/-- `Put`. -/
def Put {ε α : Type} (c : PowerCache ε α) (now : Int) (key : Key) (value : α) :
    PowerCache ε α :=
  let c1 := cleanUpIfNeccissary c now
  let c2 := { c1 with values := insertKey c1.values key value }
  let c3 := if (c2.ExpiresAfterWriteDuration == 0) && (c2.ExpiresAfterAccessDuration == 0)
      then { c2 with tstamp := insertKey c2.tstamp key now } else c2
  let c4 := if c3.ExpiresAfterWriteDuration != 0 then
      { c3 with tstamp := insertKey c3.tstamp key (now + c3.ExpiresAfterWriteDuration) }
    else c3
  let c5 := if c4.ExpiresAfterAccessDuration != 0 then
      { c4 with tstamp := insertKey c4.tstamp key (now + c4.ExpiresAfterAccessDuration) }
    else c4
  { c5 with weight := insertKey c5.weight key c5.DefaultValueWeight }

/-- `loadWithValueLoader`.  The clock is frozen within the call, so the
measured load duration is `now - now = 0`; the statistics recurrence is
otherwise as in the source, and is only reached on loader success. -/
def loadWithValueLoader {ε α : Type} (c : PowerCache ε α) (now : Int) (key : Key)
    (valueLoader : Key → Except ε α) : PowerCache ε α × Except ε α :=
  match valueLoader key with
  | Except.error e => (c, Except.error e)
  | Except.ok value =>
    let loaddur : Int := now - now
    let c1 := { c with statLoadCount := c.statLoadCount + 1 }
    let c2 := { c1 with statLoadDur := (c1.statLoadDur + loaddur) / c1.statLoadCount }
    (Put c2 now key value, Except.ok value)

/-- `GetIfPresent`; the second component is `some v` on a hit and `none`
for the `ErrNotPresent` miss. -/
def GetIfPresent {ε α : Type} (c : PowerCache ε α) (now : Int) (key : Key) :
    PowerCache ε α × Option α :=
  let c1 := if isKeyExpired c now key then Invalidate c key else c
  let c2 := { c1 with statReqs := c1.statReqs + 1 }
  match lookupKey c2.values key with
  | some v =>
    let c3 := if (c2.ExpiresAfterWriteDuration == 0) && (c2.ExpiresAfterAccessDuration == 0)
        then { c2 with tstamp := insertKey c2.tstamp key now }
      else if c2.ExpiresAfterAccessDuration != 0 then
        { c2 with tstamp := insertKey c2.tstamp key (now + c2.ExpiresAfterAccessDuration) }
      else c2
    ({ c3 with statHits := c3.statHits + 1 }, some v)
  | none => (c2, none)

/-- `GetWithValueLoader`. -/
def GetWithValueLoader {ε α : Type} (c : PowerCache ε α) (now : Int) (key : Key)
    (valueLoader : Key → Except ε α) : PowerCache ε α × Except ε α :=
  match GetIfPresent c now key with
  | (c1, some v) => (c1, Except.ok v)
  | (c1, none) => loadWithValueLoader c1 now key valueLoader

/-- `Get`. -/
def Get {ε α : Type} (c : PowerCache ε α) (now : Int) (key : Key) :
    PowerCache ε α × Except ε α :=
  GetWithValueLoader c now key c.ValueLoader

/-- `Load`. -/
def Load {ε α : Type} (c : PowerCache ε α) (now : Int) (key : Key) :
    PowerCache ε α × Except ε α :=
  GetWithValueLoader c now key c.ValueLoader

/-- `Refresh` (discards the loader result). -/
def Refresh {ε α : Type} (c : PowerCache ε α) (now : Int) (key : Key) : PowerCache ε α :=
  (loadWithValueLoader c now key c.ValueLoader).1

/-- `SetExpiresAt`. -/
def SetExpiresAt {ε α : Type} (c : PowerCache ε α) (key : Key) (expires : Int) :
    PowerCache ε α :=
  { c with tstamp := insertKey c.tstamp key expires }

/-- `SetExpiresIn`. -/
def SetExpiresIn {ε α : Type} (c : PowerCache ε α) (now : Int) (key : Key)
    (expiresIn : Int) : PowerCache ε α :=
  { c with tstamp := insertKey c.tstamp key (now + expiresIn) }

/-- `SetWeight`. -/
def SetWeight {ε α : Type} (c : PowerCache ε α) (key : Key) (weight : Int) :
    PowerCache ε α :=
  { c with weight := insertKey c.weight key weight }

/-- `EvictionCount`. -/
def EvictionCount {ε α : Type} (c : PowerCache ε α) : Int := c.statEvictions

/-- A zero `PowerCache` value (every field at its Go zero value), the
state of `new(PowerCache)` before any configuration. -/
def zeroPC (ε α : Type) (ld : Key → Except ε α) : PowerCache ε α :=
  { ValueLoader := ld, ExpiresAfterAccessDuration := 0, ExpiresAfterWriteDuration := 0,
    PeriodicMaintenance := 0, MaxKeys := 0, MaxWeight := 0, MaxSize := 0,
    DefaultValueWeight := 0, values := [], tstamp := [], weight := [],
    cacheSizeEst := 0, nextClean := 0, statLoadCount := 0, statLoadDur := 0,
    statHits := 0, statReqs := 0, statEvictions := 0 }

/-- `NewMaxKeysCache` (constructed at time `now`). -/
def NewMaxKeysCache (ε α : Type) (ld : Key → Except ε α) (maxKeys : Int) (now : Int) :
    PowerCache ε α :=
  Initialize { zeroPC ε α ld with MaxKeys := maxKeys } now

/-- `NewExpiresAfterWriteCache` (constructed at time `now`; `time.Minute * 5`
is 300e9 nanoseconds). -/
def NewExpiresAfterWriteCache (ε α : Type) (ld : Key → Except ε α) (writeDuration : Int)
    (now : Int) : PowerCache ε α :=
  Initialize { zeroPC ε α ld with ExpiresAfterWriteDuration := writeDuration,
                                  PeriodicMaintenance := 300000000000 } now

/-- `NewExpiresAfterAccessCache` (constructed at time `now`). -/
def NewExpiresAfterAccessCache (ε α : Type) (ld : Key → Except ε α) (accessDuration : Int)
    (now : Int) : PowerCache ε α :=
  Initialize { zeroPC ε α ld with ExpiresAfterAccessDuration := accessDuration,
                                  PeriodicMaintenance := 300000000000 } now

/-- The age-normalisation branch predicate that the specification mandates
for victim scoring, following its words: the deadline-remaining branch is
active whenever either expiry policy is configured.  Declared only to be
compared with the source's `scoreDeadlineBranch`. -/
def specDeadlineBranch {ε α : Type} (c : PowerCache ε α) : Bool :=
  (c.ExpiresAfterAccessDuration != 0) || (c.ExpiresAfterWriteDuration != 0)

/-- Apply a list of `Put` calls, each `(now, key, value)`, in order. -/
def applyPuts {ε α : Type} (c : PowerCache ε α) : List (Int × Key × α) → PowerCache ε α
  | [] => c
  | (t, k, v) :: rest => applyPuts (Put c t k v) rest

/-- One public cache operation, for stating invariants over arbitrary
operation sequences. -/
inductive CacheOp (ε α : Type) where
  | opPut (now : Int) (k : Key) (v : α)
  | opGetIfPresent (now : Int) (k : Key)
  | opGet (now : Int) (k : Key)
  | opGetWithValueLoader (now : Int) (k : Key) (ld : Key → Except ε α)
  | opLoad (now : Int) (k : Key)
  | opRefresh (now : Int) (k : Key)
  | opInvalidate (k : Key)
  | opInvalidateAll
  | opCleanUp (now : Int)
  | opSetExpiresAt (k : Key) (t : Int)
  | opSetExpiresIn (now : Int) (k : Key) (d : Int)
  | opSetWeight (k : Key) (w : Int)

/-- The state transition of one public operation (read results discarded). -/
def applyOp {ε α : Type} (c : PowerCache ε α) : CacheOp ε α → PowerCache ε α
  | CacheOp.opPut now k v => Put c now k v
  | CacheOp.opGetIfPresent now k => (GetIfPresent c now k).1
  | CacheOp.opGet now k => (Get c now k).1
  | CacheOp.opGetWithValueLoader now k ld => (GetWithValueLoader c now k ld).1
  | CacheOp.opLoad now k => (Load c now k).1
  | CacheOp.opRefresh now k => Refresh c now k
  | CacheOp.opInvalidate k => Invalidate c k
  | CacheOp.opInvalidateAll => InvalidateAll c
  | CacheOp.opCleanUp now => CleanUp c now
  | CacheOp.opSetExpiresAt k t => SetExpiresAt c k t
  | CacheOp.opSetExpiresIn now k d => SetExpiresIn c now k d
  | CacheOp.opSetWeight k w => SetWeight c k w

/-- Whether an operation is one of the per-key override mutations that
bypass the normal write path. -/
def isOverride {ε α : Type} : CacheOp ε α → Bool
  | CacheOp.opSetExpiresAt _ _ => true
  | CacheOp.opSetExpiresIn _ _ _ => true
  | CacheOp.opSetWeight _ _ => true
  | _ => false

/-- The three maps have identical key sets (indeed identical key lists in
this embedding, which fixes one iteration order). -/
def sameKeys {ε α : Type} (c : PowerCache ε α) : Prop :=
  keysOf c.values = keysOf c.tstamp ∧ keysOf c.values = keysOf c.weight

/-- A loader that always fails, standing in for an unset `ValueLoader`. -/
def noLoader : Key → Except String String := fun _ => Except.error "no loader"

/-- The `TestMaxKeys` insertion sequence: six distinct keys at increasing
times. -/
def scenarioPuts : List (Int × Key × String) :=
  [(1, "a", "a"), (2, "b", "b"), (3, "c", "c"), (4, "e", "e"), (5, "f", "f"), (6, "g", "g")]

/-- A write-expiry-only cache with duration 5, freshly initialised at time 0
(no periodic maintenance, isolating the expiry logic). -/
def writeOnlyCache : PowerCache String String :=
  Initialize { zeroPC String String noLoader with ExpiresAfterWriteDuration := 5 } 0

/-- `writeOnlyCache` after `Put "a" "va"` at time 0: the stored expiry
timestamp (deadline) for `"a"` is `0 + 5 = 5`. -/
def writeOnlyCacheA : PowerCache String String := Put writeOnlyCache 0 "a" "va"

/-- A write-expiry-only cache state with two live entries whose deadlines
(100 and 200) have not passed at time 50; input for the scoring-branch
analysis. -/
def twoEntryWriteCache : PowerCache String String :=
  { zeroPC String String noLoader with
      ExpiresAfterWriteDuration := 10,
      DefaultValueWeight := 1,
      values := [("x", "vx"), ("y", "vy")],
      tstamp := [("x", 100), ("y", 200)],
      weight := [("x", 1), ("y", 1)] }

/-- A bounded (maxKeys=3) write-expiry cache state in which, in iteration
order, `k1` is live (deadline 100), `k2` is expired (deadline 1) and `k3`
is live (deadline 200) at time 50; input for the sweep/victim interaction. -/
def sweepBreakCache : PowerCache String String :=
  { zeroPC String String noLoader with
      ExpiresAfterWriteDuration := 10,
      MaxKeys := 3,
      DefaultValueWeight := 1,
      values := [("k1", "v1"), ("k2", "v2"), ("k3", "v3")],
      tstamp := [("k1", 100), ("k2", 1), ("k3", 200)],
      weight := [("k1", 1), ("k2", 1), ("k3", 1)] }

/-- A periodic-only cache state whose next scheduled maintenance is at
time 100. -/
def periodicCache : PowerCache String String :=
  { zeroPC String String noLoader with PeriodicMaintenance := 10, nextClean := 100 }

/-- A cache configured with both a write-expiry (5) and an access-expiry
(3) duration. -/
def bothDurationsCache : PowerCache String String :=
  Initialize { zeroPC String String noLoader with
      ExpiresAfterWriteDuration := 5,
      ExpiresAfterAccessDuration := 3 } 0

/-- An empty, freshly initialised cache with no policy configured. -/
def emptyCache : PowerCache String String := Initialize (zeroPC String String noLoader) 0

/-- A loader that fails with the error string `"boom"` on every key. -/
def boomLoader : Key → Except String String := fun _ => Except.error "boom"

/-! ### Association-map lemmas -/

theorem keysOf_nil {β : Type} : keysOf ([] : AssocMap β) = [] := rfl

theorem keysOf_cons {β : Type} (p : Key × β) (tl : AssocMap β) :
    keysOf (p :: tl) = p.1 :: keysOf tl := rfl

theorem lookup_insertKey_self {β : Type} (m : AssocMap β) (k : Key) (v : β) :
    lookupKey (insertKey m k v) k = some v := by
  induction m with
  | nil => simp [insertKey, lookupKey]
  | cons hd tl ih =>
    obtain ⟨hk, hw⟩ := hd
    by_cases h : hk = k
    · simp [insertKey, lookupKey, h]
    · simp [insertKey, lookupKey, h, ih]

theorem keysOf_insertKey {β : Type} (m : AssocMap β) (k : Key) (v : β) :
    keysOf (insertKey m k v) = if k ∈ keysOf m then keysOf m else keysOf m ++ [k] := by
  induction m with
  | nil => simp [insertKey, keysOf]
  | cons hd tl ih =>
    obtain ⟨hk, hw⟩ := hd
    by_cases h : hk = k
    · subst h
      simp [insertKey, keysOf_cons]
    · by_cases h2 : k ∈ keysOf tl
      · have hmem : k ∈ hk :: keysOf tl := List.mem_cons_of_mem _ h2
        simp only [insertKey, beq_iff_eq, h, if_false, keysOf_cons, ih, h2, if_true]
        rw [if_pos hmem]
      · have hnm : ¬ k ∈ hk :: keysOf tl := by
          intro hc
          rcases List.mem_cons.mp hc with hc | hc
          · exact h hc.symm
          · exact h2 hc
        simp only [insertKey, beq_iff_eq, h, if_false, keysOf_cons, ih, h2, if_false,
          List.cons_append]
        rw [if_neg hnm]

theorem keysOf_eraseKey {β : Type} (m : AssocMap β) (k : Key) :
    keysOf (eraseKey m k) = (keysOf m).erase k := by
  induction m with
  | nil => simp [eraseKey, keysOf]
  | cons hd tl ih =>
    obtain ⟨hk, hw⟩ := hd
    by_cases h : hk = k
    · subst h
      simp [eraseKey, keysOf_cons, List.erase_cons]
    · have h3 : ¬ ((hk == k) = true) := by simp [h]
      simp only [eraseKey, beq_iff_eq, h, if_false, keysOf_cons, List.erase_cons,
        if_neg h3]
      exact congrArg (List.cons hk) ih

theorem length_eraseKey_of_mem {β : Type} (m : AssocMap β) (k : Key)
    (h : k ∈ keysOf m) : (eraseKey m k).length + 1 = m.length := by
  induction m with
  | nil => simp [keysOf] at h
  | cons hd tl ih =>
    obtain ⟨hk, hw⟩ := hd
    by_cases hh : hk = k
    · simp [eraseKey, hh]
    · have h2 : k ∈ keysOf tl := by
        rw [keysOf_cons] at h
        rcases List.mem_cons.mp h with hc | hc
        · exact absurd hc.symm hh
        · exact hc
      simp only [eraseKey, beq_iff_eq, hh, if_false, List.length_cons]
      rw [← ih h2]

theorem eraseKey_of_lookup_none {β : Type} (m : AssocMap β) (k : Key)
    (h : lookupKey m k = none) : eraseKey m k = m := by
  induction m with
  | nil => rfl
  | cons hd tl ih =>
    obtain ⟨hk, hw⟩ := hd
    by_cases hh : hk = k
    · simp [lookupKey, hh] at h
    · simp only [lookupKey, beq_iff_eq, hh, if_false] at h
      simp [eraseKey, hh, ih h]

theorem mem_keysOf_of_lookup_some {β : Type} (m : AssocMap β) (k : Key) (v : β)
    (h : lookupKey m k = some v) : k ∈ keysOf m := by
  induction m with
  | nil => simp [lookupKey] at h
  | cons hd tl ih =>
    obtain ⟨hk, hw⟩ := hd
    rw [keysOf_cons]
    by_cases hh : hk = k
    · subst hh
      exact List.mem_cons_self hk (keysOf tl)
    · simp only [lookupKey, beq_iff_eq, hh, if_false] at h
      exact List.mem_cons_of_mem _ (ih h)

theorem length_insertKey_le {β : Type} (m : AssocMap β) (k : Key) (v : β) :
    (insertKey m k v).length ≤ m.length + 1 := by
  induction m with
  | nil => simp [insertKey]
  | cons hd tl ih =>
    obtain ⟨hk, hw⟩ := hd
    by_cases h : hk = k
    · simp [insertKey, h]
    · simp only [insertKey, beq_iff_eq, h, if_false, List.length_cons]
      omega

/-! ### CleanUp scan lemmas -/

theorem cleanUpStep_cfg {ε α : Type} (now : Int) (s : ScanSt ε α) (k : Key) :
    (cleanUpStep now s k).c.ExpiresAfterAccessDuration = s.c.ExpiresAfterAccessDuration
    ∧ (cleanUpStep now s k).c.ExpiresAfterWriteDuration = s.c.ExpiresAfterWriteDuration
    ∧ (cleanUpStep now s k).c.PeriodicMaintenance = s.c.PeriodicMaintenance
    ∧ (cleanUpStep now s k).c.MaxKeys = s.c.MaxKeys
    ∧ (cleanUpStep now s k).c.MaxWeight = s.c.MaxWeight
    ∧ (cleanUpStep now s k).c.MaxSize = s.c.MaxSize
    ∧ (cleanUpStep now s k).c.DefaultValueWeight = s.c.DefaultValueWeight
    ∧ (cleanUpStep now s k).c.cacheSizeEst = s.c.cacheSizeEst
    ∧ (cleanUpStep now s k).c.nextClean = s.c.nextClean := by
  simp only [cleanUpStep]
  repeat' split
  all_goals exact ⟨rfl, rfl, rfl, rfl, rfl, rfl, rfl, rfl, rfl⟩

theorem cleanUpStep_aKey {ε α : Type} (now : Int) (s : ScanSt ε α) (k : Key) :
    (cleanUpStep now s k).aKey = s.aKey ∨ (cleanUpStep now s k).aKey = k := by
  simp only [cleanUpStep]
  repeat' split
  all_goals simp

theorem cleanUpStep_evictions_le {ε α : Type} (now : Int) (s : ScanSt ε α) (k : Key) :
    s.c.statEvictions ≤ (cleanUpStep now s k).c.statEvictions := by
  simp only [cleanUpStep]
  repeat' split
  all_goals simp

theorem cleanUpStep_noTime {ε α : Type} (now : Int) (s : ScanSt ε α) (k : Key)
    (h1 : s.c.ExpiresAfterWriteDuration = 0) (h2 : s.c.ExpiresAfterAccessDuration = 0) :
    (cleanUpStep now s k).c = s.c ∧ (cleanUpStep now s k).broke = s.broke := by
  simp only [cleanUpStep, h1, h2, bne_self_eq_false, Bool.or_self, Bool.false_and,
    Bool.false_eq_true, if_false]
  repeat' split
  all_goals exact ⟨rfl, rfl⟩

theorem cleanUpStep_first {ε α : Type} (now : Int) (s : ScanSt ε α) (k : Key)
    (hb : s.broke = false) (ha : s.aKey = "")
    (h1 : s.c.ExpiresAfterWriteDuration = 0) (h2 : s.c.ExpiresAfterAccessDuration = 0) :
    (cleanUpStep now s k).aKey = k := by
  simp [cleanUpStep, hb, ha, h1, h2]

theorem foldl_cleanUpStep_noTime {ε α : Type} (now : Int) (ks : List Key)
    (s : ScanSt ε α)
    (h1 : s.c.ExpiresAfterWriteDuration = 0) (h2 : s.c.ExpiresAfterAccessDuration = 0) :
    (List.foldl (cleanUpStep now) s ks).c = s.c := by
  induction ks generalizing s with
  | nil => rfl
  | cons k rest ih =>
    rw [List.foldl_cons]
    have h := cleanUpStep_noTime now s k h1 h2
    have ih2 := ih (cleanUpStep now s k) (by rw [h.1]; exact h1) (by rw [h.1]; exact h2)
    rw [ih2, h.1]

theorem foldl_cleanUpStep_aKey {ε α : Type} (now : Int) (ks : List Key) (s : ScanSt ε α) :
    (List.foldl (cleanUpStep now) s ks).aKey = s.aKey
    ∨ (List.foldl (cleanUpStep now) s ks).aKey ∈ ks := by
  induction ks generalizing s with
  | nil => left; rfl
  | cons k rest ih =>
    rw [List.foldl_cons]
    rcases ih (cleanUpStep now s k) with h | h
    · rcases cleanUpStep_aKey now s k with h2 | h2
      · left
        rw [h, h2]
      · right
        rw [h, h2]
        exact List.mem_cons_self k rest
    · right
      exact List.mem_cons_of_mem _ h

theorem foldl_cleanUpStep_cfg {ε α : Type} (now : Int) (ks : List Key) (s : ScanSt ε α) :
    (List.foldl (cleanUpStep now) s ks).c.ExpiresAfterAccessDuration
        = s.c.ExpiresAfterAccessDuration
    ∧ (List.foldl (cleanUpStep now) s ks).c.ExpiresAfterWriteDuration
        = s.c.ExpiresAfterWriteDuration
    ∧ (List.foldl (cleanUpStep now) s ks).c.PeriodicMaintenance = s.c.PeriodicMaintenance
    ∧ (List.foldl (cleanUpStep now) s ks).c.MaxKeys = s.c.MaxKeys
    ∧ (List.foldl (cleanUpStep now) s ks).c.MaxWeight = s.c.MaxWeight
    ∧ (List.foldl (cleanUpStep now) s ks).c.MaxSize = s.c.MaxSize
    ∧ (List.foldl (cleanUpStep now) s ks).c.DefaultValueWeight = s.c.DefaultValueWeight
    ∧ (List.foldl (cleanUpStep now) s ks).c.cacheSizeEst = s.c.cacheSizeEst
    ∧ (List.foldl (cleanUpStep now) s ks).c.nextClean = s.c.nextClean := by
  induction ks generalizing s with
  | nil => exact ⟨rfl, rfl, rfl, rfl, rfl, rfl, rfl, rfl, rfl⟩
  | cons k rest ih =>
    rw [List.foldl_cons]
    have h := cleanUpStep_cfg now s k
    have h2 := ih (cleanUpStep now s k)
    obtain ⟨a1, a2, a3, a4, a5, a6, a7, a8, a9⟩ := h
    obtain ⟨b1, b2, b3, b4, b5, b6, b7, b8, b9⟩ := h2
    exact ⟨b1.trans a1, b2.trans a2, b3.trans a3, b4.trans a4, b5.trans a5,
      b6.trans a6, b7.trans a7, b8.trans a8, b9.trans a9⟩

theorem foldl_cleanUpStep_evictions_le {ε α : Type} (now : Int) (ks : List Key)
    (s : ScanSt ε α) :
    s.c.statEvictions ≤ (List.foldl (cleanUpStep now) s ks).c.statEvictions := by
  induction ks generalizing s with
  | nil => exact le_rfl
  | cons k rest ih =>
    rw [List.foldl_cons]
    exact le_trans (cleanUpStep_evictions_le now s k) (ih (cleanUpStep now s k))

theorem eraseKey_nil {β : Type} (k : Key) : eraseKey ([] : AssocMap β) k = [] := rfl

theorem CleanUp_values_shape {ε α : Type} (c : PowerCache ε α) (now : Int) :
    (CleanUp c now).values =
      eraseKey (List.foldl (cleanUpStep now) ⟨c, "", 0, 0, false⟩ (keysOf c.values)).c.values
        (List.foldl (cleanUpStep now) ⟨c, "", 0, 0, false⟩ (keysOf c.values)).aKey := by
  simp only [CleanUp]
  split
  · rfl
  · rfl

theorem CleanUp_tstamp_shape {ε α : Type} (c : PowerCache ε α) (now : Int) :
    (CleanUp c now).tstamp =
      eraseKey (List.foldl (cleanUpStep now) ⟨c, "", 0, 0, false⟩ (keysOf c.values)).c.tstamp
        (List.foldl (cleanUpStep now) ⟨c, "", 0, 0, false⟩ (keysOf c.values)).aKey := by
  simp only [CleanUp]
  split
  · rfl
  · rfl

theorem CleanUp_weight_shape {ε α : Type} (c : PowerCache ε α) (now : Int) :
    (CleanUp c now).weight =
      eraseKey (List.foldl (cleanUpStep now) ⟨c, "", 0, 0, false⟩ (keysOf c.values)).c.weight
        (List.foldl (cleanUpStep now) ⟨c, "", 0, 0, false⟩ (keysOf c.values)).aKey := by
  simp only [CleanUp]
  split
  · rfl
  · rfl

theorem CleanUp_evictions_shape {ε α : Type} (c : PowerCache ε α) (now : Int) :
    (CleanUp c now).statEvictions =
      (List.foldl (cleanUpStep now) ⟨c, "", 0, 0, false⟩ (keysOf c.values)).c.statEvictions
        + 1 := by
  simp only [CleanUp]
  split
  · rfl
  · rfl

theorem CleanUp_cfg {ε α : Type} (c : PowerCache ε α) (now : Int) :
    (CleanUp c now).ExpiresAfterAccessDuration = c.ExpiresAfterAccessDuration
    ∧ (CleanUp c now).ExpiresAfterWriteDuration = c.ExpiresAfterWriteDuration
    ∧ (CleanUp c now).PeriodicMaintenance = c.PeriodicMaintenance
    ∧ (CleanUp c now).MaxKeys = c.MaxKeys
    ∧ (CleanUp c now).MaxWeight = c.MaxWeight
    ∧ (CleanUp c now).MaxSize = c.MaxSize
    ∧ (CleanUp c now).DefaultValueWeight = c.DefaultValueWeight
    ∧ (CleanUp c now).cacheSizeEst = c.cacheSizeEst := by
  have h := foldl_cleanUpStep_cfg now (keysOf c.values) ⟨c, "", 0, 0, false⟩
  obtain ⟨a1, a2, a3, a4, a5, a6, a7, a8, a9⟩ := h
  simp only [CleanUp]
  split
  · exact ⟨a1, a2, a3, a4, a5, a6, a7, a8⟩
  · exact ⟨a1, a2, a3, a4, a5, a6, a7, a8⟩

theorem CleanUp_evictions_le {ε α : Type} (c : PowerCache ε α) (now : Int) :
    c.statEvictions + 1 ≤ (CleanUp c now).statEvictions := by
  rw [CleanUp_evictions_shape]
  have h2 : c.statEvictions
      ≤ (List.foldl (cleanUpStep now) ⟨c, "", 0, 0, false⟩ (keysOf c.values)).c.statEvictions :=
    foldl_cleanUpStep_evictions_le now (keysOf c.values) ⟨c, "", 0, 0, false⟩
  omega

theorem CleanUp_values_noTime {ε α : Type} (c : PowerCache ε α) (now : Int)
    (h1 : c.ExpiresAfterWriteDuration = 0) (h2 : c.ExpiresAfterAccessDuration = 0) :
    ∃ k : Key, (CleanUp c now).values = eraseKey c.values k
      ∧ (c.values ≠ [] → k ∈ keysOf c.values) := by
  refine ⟨(List.foldl (cleanUpStep now) ⟨c, "", 0, 0, false⟩ (keysOf c.values)).aKey, ?_, ?_⟩
  · rw [CleanUp_values_shape, foldl_cleanUpStep_noTime now _ _ h1 h2]
  · intro hne
    cases hv : c.values with
    | nil => exact absurd hv hne
    | cons p tl =>
      rw [keysOf_cons, List.foldl_cons]
      have hfirst : (cleanUpStep now ⟨c, "", 0, 0, false⟩ p.1).aKey = p.1 :=
        cleanUpStep_first now _ p.1 rfl rfl h1 h2
      rcases foldl_cleanUpStep_aKey now (keysOf tl)
          (cleanUpStep now ⟨c, "", 0, 0, false⟩ p.1) with h | h
      · rw [h, hfirst]
        exact List.mem_cons_self _ _
      · exact List.mem_cons_of_mem _ h

theorem CleanUp_of_empty {ε α : Type} (c : PowerCache ε α) (now : Int)
    (hv : c.values = []) (ht : c.tstamp = []) (hw : c.weight = []) :
    (CleanUp c now).values = [] ∧ (CleanUp c now).tstamp = []
    ∧ (CleanUp c now).weight = []
    ∧ (CleanUp c now).statEvictions = c.statEvictions + 1 := by
  have hfold : List.foldl (cleanUpStep now) (⟨c, "", 0, 0, false⟩ : ScanSt ε α)
      (keysOf c.values) = ⟨c, "", 0, 0, false⟩ := by
    rw [hv, keysOf_nil, List.foldl_nil]
  refine ⟨?_, ?_, ?_, ?_⟩
  · rw [CleanUp_values_shape, hfold]
    show eraseKey c.values "" = []
    rw [hv, eraseKey_nil]
  · rw [CleanUp_tstamp_shape, hfold]
    show eraseKey c.tstamp "" = []
    rw [ht, eraseKey_nil]
  · rw [CleanUp_weight_shape, hfold]
    show eraseKey c.weight "" = []
    rw [hw, eraseKey_nil]
  · rw [CleanUp_evictions_shape, hfold]

/-! ### Put and maintenance-trigger lemmas -/

theorem cleanUpIfNeccissary_cfg {ε α : Type} (c : PowerCache ε α) (now : Int) :
    (cleanUpIfNeccissary c now).ExpiresAfterAccessDuration = c.ExpiresAfterAccessDuration
    ∧ (cleanUpIfNeccissary c now).ExpiresAfterWriteDuration = c.ExpiresAfterWriteDuration
    ∧ (cleanUpIfNeccissary c now).PeriodicMaintenance = c.PeriodicMaintenance
    ∧ (cleanUpIfNeccissary c now).MaxKeys = c.MaxKeys
    ∧ (cleanUpIfNeccissary c now).MaxWeight = c.MaxWeight
    ∧ (cleanUpIfNeccissary c now).MaxSize = c.MaxSize
    ∧ (cleanUpIfNeccissary c now).DefaultValueWeight = c.DefaultValueWeight
    ∧ (cleanUpIfNeccissary c now).cacheSizeEst = c.cacheSizeEst := by
  simp only [cleanUpIfNeccissary]
  split
  · exact CleanUp_cfg c now
  · exact ⟨rfl, rfl, rfl, rfl, rfl, rfl, rfl, rfl⟩

theorem Put_values {ε α : Type} (c : PowerCache ε α) (now : Int) (k : Key) (v : α) :
    (Put c now k v).values = insertKey (cleanUpIfNeccissary c now).values k v := by
  simp only [Put]
  repeat' split
  all_goals rfl

theorem Put_evictions {ε α : Type} (c : PowerCache ε α) (now : Int) (k : Key) (v : α) :
    (Put c now k v).statEvictions = (cleanUpIfNeccissary c now).statEvictions := by
  simp only [Put]
  repeat' split
  all_goals rfl

theorem Put_cfg {ε α : Type} (c : PowerCache ε α) (now : Int) (k : Key) (v : α) :
    (Put c now k v).ExpiresAfterAccessDuration = c.ExpiresAfterAccessDuration
    ∧ (Put c now k v).ExpiresAfterWriteDuration = c.ExpiresAfterWriteDuration
    ∧ (Put c now k v).PeriodicMaintenance = c.PeriodicMaintenance
    ∧ (Put c now k v).MaxKeys = c.MaxKeys
    ∧ (Put c now k v).MaxWeight = c.MaxWeight
    ∧ (Put c now k v).MaxSize = c.MaxSize
    ∧ (Put c now k v).DefaultValueWeight = c.DefaultValueWeight
    ∧ (Put c now k v).cacheSizeEst = c.cacheSizeEst := by
  obtain ⟨a1, a2, a3, a4, a5, a6, a7, a8⟩ := cleanUpIfNeccissary_cfg c now
  simp only [Put]
  repeat' split
  all_goals exact ⟨a1, a2, a3, a4, a5, a6, a7, a8⟩

theorem Put_inv {ε α : Type} (N : Int) (c : PowerCache ε α) (now : Int) (k : Key) (v : α)
    (hN : 0 < N)
    (h1 : c.ExpiresAfterWriteDuration = 0) (h2 : c.ExpiresAfterAccessDuration = 0)
    (h3 : c.PeriodicMaintenance = 0) (h4 : c.MaxSize = 0) (h5 : c.MaxKeys = N)
    (h6 : (c.values.length : Int) ≤ N) :
    (Put c now k v).ExpiresAfterWriteDuration = 0
    ∧ (Put c now k v).ExpiresAfterAccessDuration = 0
    ∧ (Put c now k v).PeriodicMaintenance = 0
    ∧ (Put c now k v).MaxSize = 0
    ∧ (Put c now k v).MaxKeys = N
    ∧ ((Put c now k v).values.length : Int) ≤ N := by
  obtain ⟨pa, pw, pp, pk, pmw, pms, pd, ps⟩ := Put_cfg c now k v
  refine ⟨pw.trans h1, pa.trans h2, pp.trans h3, pms.trans h4, pk.trans h5, ?_⟩
  rw [Put_values]
  have hle := length_insertKey_le (cleanUpIfNeccissary c now).values k v
  by_cases hsc : shouldClean c now = true
  · have hc1 : cleanUpIfNeccissary c now = CleanUp c now := by
      simp [cleanUpIfNeccissary, hsc]
    obtain ⟨k2, hval, hmem⟩ := CleanUp_values_noTime c now h1 h2
    by_cases hne : c.values = []
    · rw [hc1, hval, hne, eraseKey_nil] at hle ⊢
      simp only [List.length_nil] at hle
      omega
    · have hm := hmem hne
      have hlen := length_eraseKey_of_mem c.values k2 hm
      rw [hc1, hval] at hle ⊢
      omega
  · have hc1 : cleanUpIfNeccissary c now = c := by
      simp [cleanUpIfNeccissary, hsc]
    have hlt : (c.values.length : Int) < N := by
      by_contra hge
      push_neg at hge
      apply hsc
      have hne0 : (c.MaxKeys != 0) = true := by
        rw [bne_iff_ne, h5]
        omega
      have hdec : decide (c.MaxKeys ≤ (c.values.length : Int)) = true := by
        rw [h5]
        exact decide_eq_true hge
      simp only [shouldClean, hne0, hdec, Bool.and_self, Bool.true_and, Bool.or_true,
        Bool.true_or]
    rw [hc1] at hle ⊢
    omega

theorem applyPuts_inv {ε α : Type} (N : Int) (hN : 0 < N) (ops : List (Int × Key × α)) :
    ∀ c : PowerCache ε α,
      c.ExpiresAfterWriteDuration = 0 → c.ExpiresAfterAccessDuration = 0 →
      c.PeriodicMaintenance = 0 → c.MaxSize = 0 → c.MaxKeys = N →
      (c.values.length : Int) ≤ N → ((applyPuts c ops).values.length : Int) ≤ N := by
  induction ops with
  | nil =>
    intro c _ _ _ _ _ h6
    exact h6
  | cons op rest ih =>
    intro c h1 h2 h3 h4 h5 h6
    obtain ⟨t, k, v⟩ := op
    have h := Put_inv N c t k v hN h1 h2 h3 h4 h5 h6
    exact ih (Put c t k v) h.1 h.2.1 h.2.2.1 h.2.2.2.1 h.2.2.2.2.1 h.2.2.2.2.2

theorem NewMaxKeysCache_spec (ε α : Type) (ld : Key → Except ε α) (N t0 : Int) :
    (NewMaxKeysCache ε α ld N t0).ExpiresAfterWriteDuration = 0
    ∧ (NewMaxKeysCache ε α ld N t0).ExpiresAfterAccessDuration = 0
    ∧ (NewMaxKeysCache ε α ld N t0).PeriodicMaintenance = 0
    ∧ (NewMaxKeysCache ε α ld N t0).MaxSize = 0
    ∧ (NewMaxKeysCache ε α ld N t0).MaxKeys = N
    ∧ (NewMaxKeysCache ε α ld N t0).values = [] := by
  simp [NewMaxKeysCache, Initialize, zeroPC]

/-! ### Eviction-counter lemmas -/

theorem cleanUpIfNeccissary_evictions_le {ε α : Type} (c : PowerCache ε α) (now : Int) :
    c.statEvictions ≤ (cleanUpIfNeccissary c now).statEvictions := by
  simp only [cleanUpIfNeccissary]
  split
  · have h := CleanUp_evictions_le c now
    omega
  · exact le_rfl

theorem Put_evictions_le {ε α : Type} (c : PowerCache ε α) (now : Int) (k : Key) (v : α) :
    c.statEvictions ≤ (Put c now k v).statEvictions := by
  rw [Put_evictions]
  exact cleanUpIfNeccissary_evictions_le c now

theorem GetIfPresent_evictions_eq {ε α : Type} (c : PowerCache ε α) (now : Int) (k : Key) :
    (GetIfPresent c now k).1.statEvictions
      = (if isKeyExpired c now k then Invalidate c k else c).statEvictions := by
  simp only [GetIfPresent]
  generalize (if isKeyExpired c now k then Invalidate c k else c) = d
  split
  · split
    · rfl
    · split
      · rfl
      · rfl
  · rfl

theorem GetIfPresent_evictions_le {ε α : Type} (c : PowerCache ε α) (now : Int) (k : Key) :
    c.statEvictions ≤ (GetIfPresent c now k).1.statEvictions := by
  rw [GetIfPresent_evictions_eq]
  split
  · show c.statEvictions ≤ c.statEvictions + 1
    omega
  · exact le_rfl

theorem loadWithValueLoader_evictions_le {ε α : Type} (c : PowerCache ε α) (now : Int)
    (k : Key) (ld : Key → Except ε α) :
    c.statEvictions ≤ (loadWithValueLoader c now k ld).1.statEvictions := by
  simp only [loadWithValueLoader]
  split
  · exact le_rfl
  · rename_i v heq
    refine le_trans ?_ (Put_evictions_le _ now k v)
    exact le_rfl

theorem GetWithValueLoader_evictions_le {ε α : Type} (c : PowerCache ε α) (now : Int)
    (k : Key) (ld : Key → Except ε α) :
    c.statEvictions ≤ (GetWithValueLoader c now k ld).1.statEvictions := by
  simp only [GetWithValueLoader]
  split
  all_goals rename_i c1 heq
  · have h := GetIfPresent_evictions_le c now k
    rw [heq] at h
    exact h
  · have h := GetIfPresent_evictions_le c now k
    rw [heq] at h
    exact le_trans h (loadWithValueLoader_evictions_le _ now k ld)

theorem applyOp_evictions_le {ε α : Type} (c : PowerCache ε α) (op : CacheOp ε α) :
    c.statEvictions ≤ (applyOp c op).statEvictions := by
  cases op with
  | opPut now k v => exact Put_evictions_le c now k v
  | opGetIfPresent now k => exact GetIfPresent_evictions_le c now k
  | opGet now k => exact GetWithValueLoader_evictions_le c now k c.ValueLoader
  | opGetWithValueLoader now k ld => exact GetWithValueLoader_evictions_le c now k ld
  | opLoad now k => exact GetWithValueLoader_evictions_le c now k c.ValueLoader
  | opRefresh now k => exact loadWithValueLoader_evictions_le c now k c.ValueLoader
  | opInvalidate k => simp [applyOp, Invalidate]
  | opInvalidateAll =>
    show c.statEvictions ≤ (InvalidateAll c).statEvictions
    show c.statEvictions ≤ c.statEvictions + (c.values.length : Int)
    have h : (0 : Int) ≤ (c.values.length : Int) := Int.ofNat_nonneg _
    omega
  | opCleanUp now =>
    have h := CleanUp_evictions_le c now
    show c.statEvictions ≤ (CleanUp c now).statEvictions
    omega
  | opSetExpiresAt k t => exact le_rfl
  | opSetExpiresIn now k d => exact le_rfl
  | opSetWeight k w => exact le_rfl

theorem foldl_applyOp_evictions_le {ε α : Type} (ops : List (CacheOp ε α)) :
    ∀ c : PowerCache ε α, c.statEvictions ≤ (List.foldl applyOp c ops).statEvictions := by
  induction ops with
  | nil => intro c; exact le_rfl
  | cons op rest ih =>
    intro c
    rw [List.foldl_cons]
    exact le_trans (applyOp_evictions_le c op) (ih (applyOp c op))

/-! ### Key-set lemmas -/

theorem keysEq_insertKey {β γ : Type} (m1 : AssocMap β) (m2 : AssocMap γ) (k : Key)
    (v : β) (w : γ) (h : keysOf m1 = keysOf m2) :
    keysOf (insertKey m1 k v) = keysOf (insertKey m2 k w) := by
  rw [keysOf_insertKey, keysOf_insertKey, h]

theorem mem_keysOf_insertKey {β : Type} (m : AssocMap β) (k : Key) (v : β) :
    k ∈ keysOf (insertKey m k v) := by
  rw [keysOf_insertKey]
  split
  · assumption
  · exact List.mem_append_right _ (List.mem_singleton.mpr rfl)

theorem keysOf_insertKey_mem {β : Type} (m : AssocMap β) (k : Key) (v : β)
    (h : k ∈ keysOf m) : keysOf (insertKey m k v) = keysOf m := by
  rw [keysOf_insertKey, if_pos h]

theorem keysOf_insertKey_insertKey {β : Type} (m : AssocMap β) (k : Key) (v w : β) :
    keysOf (insertKey (insertKey m k v) k w) = keysOf (insertKey m k v) :=
  keysOf_insertKey_mem _ k w (mem_keysOf_insertKey m k v)

theorem sameKeys_Invalidate {ε α : Type} (c : PowerCache ε α) (k : Key)
    (h : sameKeys c) : sameKeys (Invalidate c k) := by
  obtain ⟨h1, h2⟩ := h
  constructor
  · show keysOf (eraseKey c.values k) = keysOf (eraseKey c.tstamp k)
    rw [keysOf_eraseKey, keysOf_eraseKey, h1]
  · show keysOf (eraseKey c.values k) = keysOf (eraseKey c.weight k)
    rw [keysOf_eraseKey, keysOf_eraseKey, h2]

theorem sameKeys_InvalidateAll {ε α : Type} (c : PowerCache ε α) :
    sameKeys (InvalidateAll c) := ⟨rfl, rfl⟩

theorem sameKeys_cleanUpStep {ε α : Type} (now : Int) (s : ScanSt ε α) (k : Key)
    (h : sameKeys s.c) : sameKeys (cleanUpStep now s k).c := by
  simp only [cleanUpStep]
  repeat' split
  all_goals first
    | exact h
    | exact sameKeys_Invalidate s.c k h

theorem sameKeys_foldl_cleanUpStep {ε α : Type} (now : Int) (ks : List Key) :
    ∀ s : ScanSt ε α, sameKeys s.c → sameKeys (List.foldl (cleanUpStep now) s ks).c := by
  induction ks with
  | nil => intro s h; exact h
  | cons k rest ih =>
    intro s h
    rw [List.foldl_cons]
    exact ih (cleanUpStep now s k) (sameKeys_cleanUpStep now s k h)

theorem sameKeys_CleanUp {ε α : Type} (c : PowerCache ε α) (now : Int)
    (h : sameKeys c) : sameKeys (CleanUp c now) := by
  have hf := sameKeys_foldl_cleanUpStep now (keysOf c.values) ⟨c, "", 0, 0, false⟩ h
  constructor
  · rw [CleanUp_values_shape, CleanUp_tstamp_shape, keysOf_eraseKey, keysOf_eraseKey, hf.1]
  · rw [CleanUp_values_shape, CleanUp_weight_shape, keysOf_eraseKey, keysOf_eraseKey, hf.2]

theorem sameKeys_cleanUpIfNeccissary {ε α : Type} (c : PowerCache ε α) (now : Int)
    (h : sameKeys c) : sameKeys (cleanUpIfNeccissary c now) := by
  simp only [cleanUpIfNeccissary]
  split
  · exact sameKeys_CleanUp c now h
  · exact h

theorem sameKeys_Put {ε α : Type} (c : PowerCache ε α) (now : Int) (k : Key) (v : α)
    (h : sameKeys c) : sameKeys (Put c now k v) := by
  obtain ⟨h1, h2⟩ := sameKeys_cleanUpIfNeccissary c now h
  by_cases hW : (cleanUpIfNeccissary c now).ExpiresAfterWriteDuration = 0 <;>
    by_cases hA : (cleanUpIfNeccissary c now).ExpiresAfterAccessDuration = 0
  · simp only [Put, hW, hA]
    simp only [beq_self_eq_true, Bool.and_self, if_true, bne_self_eq_false,
      Bool.false_eq_true, if_false]
    exact ⟨keysEq_insertKey _ _ k v now h1, keysEq_insertKey _ _ k v _ h2⟩
  · have hAb : ((cleanUpIfNeccissary c now).ExpiresAfterAccessDuration == 0) = false := by
      simp [hA]
    have hAb2 : ((cleanUpIfNeccissary c now).ExpiresAfterAccessDuration != 0) = true := by
      simp [hA]
    simp only [Put, hW, hAb, hAb2, beq_self_eq_true, Bool.true_and, bne_self_eq_false,
      Bool.false_eq_true, if_false, if_true]
    exact ⟨keysEq_insertKey _ _ k v _ h1, keysEq_insertKey _ _ k v _ h2⟩
  · have hWb : ((cleanUpIfNeccissary c now).ExpiresAfterWriteDuration == 0) = false := by
      simp [hW]
    have hWb2 : ((cleanUpIfNeccissary c now).ExpiresAfterWriteDuration != 0) = true := by
      simp [hW]
    simp only [Put, hWb, hWb2, hA, Bool.false_and, Bool.false_eq_true, if_false, if_true,
      bne_self_eq_false]
    exact ⟨keysEq_insertKey _ _ k v _ h1, keysEq_insertKey _ _ k v _ h2⟩
  · have hAb2 : ((cleanUpIfNeccissary c now).ExpiresAfterAccessDuration != 0) = true := by
      simp [hA]
    have hWb : ((cleanUpIfNeccissary c now).ExpiresAfterWriteDuration == 0) = false := by
      simp [hW]
    have hWb2 : ((cleanUpIfNeccissary c now).ExpiresAfterWriteDuration != 0) = true := by
      simp [hW]
    simp only [Put, hWb, hWb2, hAb2, Bool.false_and, Bool.false_eq_true, if_false, if_true]
    refine ⟨?_, keysEq_insertKey _ _ k v _ h2⟩
    have ha := keysEq_insertKey (cleanUpIfNeccissary c now).values
      (cleanUpIfNeccissary c now).tstamp k v
      (now + (cleanUpIfNeccissary c now).ExpiresAfterWriteDuration) h1
    have hb := keysOf_insertKey_insertKey (cleanUpIfNeccissary c now).tstamp k
      (now + (cleanUpIfNeccissary c now).ExpiresAfterWriteDuration)
      (now + (cleanUpIfNeccissary c now).ExpiresAfterAccessDuration)
    exact ha.trans hb.symm

theorem sameKeys_GetIfPresent {ε α : Type} (c : PowerCache ε α) (now : Int) (k : Key)
    (h : sameKeys c) : sameKeys (GetIfPresent c now k).1 := by
  simp only [GetIfPresent]
  generalize hd : (if isKeyExpired c now k then Invalidate c k else c) = d
  have hds : sameKeys d := by
    rw [← hd]
    split
    · exact sameKeys_Invalidate c k h
    · exact h
  obtain ⟨hd1, hd2⟩ := hds
  split
  · rename_i v heq
    have hmem : k ∈ keysOf d.values := mem_keysOf_of_lookup_some _ _ _ heq
    split
    · refine ⟨?_, hd2⟩
      show keysOf d.values = keysOf (insertKey d.tstamp k now)
      rw [keysOf_insertKey_mem _ _ _ (hd1 ▸ hmem)]
      exact hd1
    · split
      · refine ⟨?_, hd2⟩
        show keysOf d.values
          = keysOf (insertKey d.tstamp k (now + d.ExpiresAfterAccessDuration))
        rw [keysOf_insertKey_mem _ _ _ (hd1 ▸ hmem)]
        exact hd1
      · exact ⟨hd1, hd2⟩
  · exact ⟨hd1, hd2⟩

theorem sameKeys_loadWithValueLoader {ε α : Type} (c : PowerCache ε α) (now : Int)
    (k : Key) (ld : Key → Except ε α) (h : sameKeys c) :
    sameKeys (loadWithValueLoader c now k ld).1 := by
  simp only [loadWithValueLoader]
  split
  · exact h
  · exact sameKeys_Put _ now k _ h

theorem sameKeys_GetWithValueLoader {ε α : Type} (c : PowerCache ε α) (now : Int)
    (k : Key) (ld : Key → Except ε α) (h : sameKeys c) :
    sameKeys (GetWithValueLoader c now k ld).1 := by
  simp only [GetWithValueLoader]
  split
  all_goals rename_i c1 heq
  · have hg := sameKeys_GetIfPresent c now k h
    rw [heq] at hg
    exact hg
  · have hg := sameKeys_GetIfPresent c now k h
    rw [heq] at hg
    exact sameKeys_loadWithValueLoader c1 now k ld hg

/-! ### Claim theorems -/

set_option maxRecDepth 8000

/-- C1: the claim that `GetIfPresent` treats a key as expired exactly when
its stored deadline has passed is violated by the code: `Put` stores the
absolute deadline `write-time + duration`, but `isKeyExpired` compares
`now` against `stored + duration`, adding the duration a second time.  At
write-expiry 5, a key written at time 0 (stored deadline 5) is still
returned as a hit at time 8, even though its stored deadline has passed —
while `CleanUp` (which compares the stored timestamp against `now`
directly) would evict the very same key at time 8. -/
theorem C1_expiry_check_code_bug :
    lookupD writeOnlyCacheA.tstamp "a" 0 = 5
    ∧ (5 : Int) < 8
    ∧ isKeyExpired writeOnlyCacheA 8 "a" = false
    ∧ (GetIfPresent writeOnlyCacheA 8 "a").2 = some "va"
    ∧ (GetIfPresent writeOnlyCacheA 11 "a").2 = none
    ∧ lookupKey (CleanUp writeOnlyCacheA 8).values "a" = none := by
  refine ⟨by decide, by decide, by decide, by decide, by decide, by decide⟩

/-- C2: with max entry count N and no other policy, the live key count
never exceeds N after any sequence of `Put` calls; and in the concrete
`maxKeys = 5` scenario inserting `a, b, c, e, f, g`, exactly one key is
evicted and 5 remain. -/
theorem C2_capacity_bound (ε α : Type) (ld : Key → Except ε α) (N : Int)
    (ops : List (Int × Key × α)) (hN : 0 < N) :
    ((applyPuts (NewMaxKeysCache ε α ld N 0) ops).values.length : Int) ≤ N
    ∧ (applyPuts (NewMaxKeysCache String String noLoader 5 0) scenarioPuts).values.length
        = 5
    ∧ (applyPuts (NewMaxKeysCache String String noLoader 5 0) scenarioPuts).statEvictions
        = 1 := by
  obtain ⟨f1, f2, f3, f4, f5, f6⟩ := NewMaxKeysCache_spec ε α ld N 0
  refine ⟨?_, by decide, by decide⟩
  apply applyPuts_inv N hN ops _ f1 f2 f3 f4 f5
  rw [f6]
  simp only [List.length_nil, Nat.cast_zero]
  omega

/-- Witness for C2 at N = 5 with the scenario insertions. -/
theorem C2_capacity_bound_witness :
    (0 : Int) < 5
    ∧ (((applyPuts (NewMaxKeysCache String String noLoader 5 0)
          scenarioPuts).values.length : Int) ≤ 5
      ∧ (applyPuts (NewMaxKeysCache String String noLoader 5 0)
          scenarioPuts).values.length = 5
      ∧ (applyPuts (NewMaxKeysCache String String noLoader 5 0)
          scenarioPuts).statEvictions = 1) :=
  ⟨by decide, C2_capacity_bound String String noLoader 5 scenarioPuts (by decide)⟩

/-- C3: the claim that the deadline-remaining age normalisation is used
whenever either expiry policy is configured is violated by the code: the
branch condition tests the access duration against itself twice, so a
write-expiry-only cache takes the inverted-elapsed branch.  For every
cache the source predicate equals "access-expiry configured", and on the
two-entry write-expiry cache the source predicate is false while the
spec's predicate is true; consequently `CleanUp` picks `y` (the entry
with more remaining life would be `x` under the mandated branch) and
leaves `["x"]`. -/
theorem C3_score_branch_code_bug :
    (∀ (ε α : Type) (c : PowerCache ε α),
      scoreDeadlineBranch c = (c.ExpiresAfterAccessDuration != 0))
    ∧ scoreDeadlineBranch twoEntryWriteCache = false
    ∧ specDeadlineBranch twoEntryWriteCache = true
    ∧ keysOf (CleanUp twoEntryWriteCache 50).values = ["x"] := by
  refine ⟨?_, by decide, by decide, by decide⟩
  intro ε α c
  simp [scoreDeadlineBranch]

/-- C4: the claim that a pass whose bounded sweep evicted an expired key
removes no additional score-selected victim is violated by the code: the
final candidate deletion and its eviction-counter increment run
unconditionally, even after the sweep `break`.  On `sweepBreakCache` at
time 50 the sweep evicts the expired `k2` and breaks, yet the running
candidate `k1` is also deleted and the counter rises by 2. -/
theorem C4_sweep_victim_code_bug :
    keysOf sweepBreakCache.values = ["k1", "k2", "k3"]
    ∧ lookupD sweepBreakCache.tstamp "k2" 0 < 50
    ∧ (50 : Int) < lookupD sweepBreakCache.tstamp "k1" 0
    ∧ sweepBreakCache.statEvictions = 0
    ∧ keysOf (CleanUp sweepBreakCache 50).values = ["k3"]
    ∧ (CleanUp sweepBreakCache 50).statEvictions = 2 := by
  refine ⟨by decide, by decide, by decide, by decide, by decide, by decide⟩

/-- C5: the claim that periodic maintenance is due exactly when the
next-maintenance timestamp has been reached is violated by the code: the
trigger tests `nextClean.After(now)`, so with `nextClean = 100` the
trigger fires at time 50 (still in the future) and does not fire at time
150 (already due); `cleanUpIfNeccissary` at time 150 leaves the cache
untouched. -/
theorem C5_periodic_trigger_code_bug :
    periodicCache.nextClean = 100
    ∧ shouldClean periodicCache 50 = true
    ∧ shouldClean periodicCache 150 = false
    ∧ cleanUpIfNeccissary periodicCache 150 = periodicCache := by
  refine ⟨rfl, by decide, by decide, rfl⟩

/-- C6 counterexample: with write-expiry 5 and access-expiry 3 both
configured, `Put` at time 100 stores `103 = now + accessDuration`, not
`105 = now + writeDuration` — access-expiry wins, so the claimed
write-over-access priority is false. -/
theorem C6_expiry_priority_counterexample :
    bothDurationsCache.ExpiresAfterWriteDuration = 5
    ∧ bothDurationsCache.ExpiresAfterAccessDuration = 3
    ∧ lookupKey (Put bothDurationsCache 100 "k" "v").tstamp "k" = some 103
    ∧ ¬ lookupKey (Put bothDurationsCache 100 "k" "v").tstamp "k" = some 105 := by
  refine ⟨rfl, rfl, by decide, by decide⟩

/-- C6 amended: `Put` stores the current time when neither duration is
configured, `now + writeDuration` when write-expiry is configured and
access-expiry is not, and `now + accessDuration` whenever access-expiry is
configured (access-expiry taking precedence when both are configured: the
three assignments run in sequence and the access one is last). -/
theorem C6_expiry_priority_amended (ε α : Type) (c : PowerCache ε α) (now : Int)
    (k : Key) (v : α) :
    (c.ExpiresAfterAccessDuration ≠ 0 →
      lookupKey (Put c now k v).tstamp k = some (now + c.ExpiresAfterAccessDuration))
    ∧ (c.ExpiresAfterAccessDuration = 0 → c.ExpiresAfterWriteDuration ≠ 0 →
      lookupKey (Put c now k v).tstamp k = some (now + c.ExpiresAfterWriteDuration))
    ∧ (c.ExpiresAfterAccessDuration = 0 → c.ExpiresAfterWriteDuration = 0 →
      lookupKey (Put c now k v).tstamp k = some now) := by
  obtain ⟨pa, pw, _, _, _, _, _, _⟩ := cleanUpIfNeccissary_cfg c now
  refine ⟨?_, ?_, ?_⟩
  · intro hA
    have hA1 : (cleanUpIfNeccissary c now).ExpiresAfterAccessDuration ≠ 0 := by
      rw [pa]; exact hA
    have e1 : ((cleanUpIfNeccissary c now).ExpiresAfterWriteDuration == 0
        && (cleanUpIfNeccissary c now).ExpiresAfterAccessDuration == 0) = false := by
      simp [hA1]
    have e3 : ((cleanUpIfNeccissary c now).ExpiresAfterAccessDuration != 0) = true := by
      simp [hA1]
    by_cases hW1 : (cleanUpIfNeccissary c now).ExpiresAfterWriteDuration = 0
    · have e2 : ((cleanUpIfNeccissary c now).ExpiresAfterWriteDuration != 0) = false := by
        simp [hW1]
      simp only [Put, e1, e2, e3, Bool.false_eq_true, if_false, if_true]
      rw [lookup_insertKey_self, pa]
    · have e2 : ((cleanUpIfNeccissary c now).ExpiresAfterWriteDuration != 0) = true := by
        simp [hW1]
      simp only [Put, e1, e2, e3, Bool.false_eq_true, if_false, if_true]
      rw [lookup_insertKey_self, pa]
  · intro hA hW
    have hA1 : (cleanUpIfNeccissary c now).ExpiresAfterAccessDuration = 0 := by
      rw [pa]; exact hA
    have hW1 : (cleanUpIfNeccissary c now).ExpiresAfterWriteDuration ≠ 0 := by
      rw [pw]; exact hW
    have e1 : ((cleanUpIfNeccissary c now).ExpiresAfterWriteDuration == 0
        && (cleanUpIfNeccissary c now).ExpiresAfterAccessDuration == 0) = false := by
      simp [hW1]
    have e2 : ((cleanUpIfNeccissary c now).ExpiresAfterWriteDuration != 0) = true := by
      simp [hW1]
    have e3 : ((cleanUpIfNeccissary c now).ExpiresAfterAccessDuration != 0) = false := by
      simp [hA1]
    simp only [Put, e1, e2, e3, Bool.false_eq_true, if_false, if_true]
    rw [lookup_insertKey_self, pw]
  · intro hA hW
    have hA1 : (cleanUpIfNeccissary c now).ExpiresAfterAccessDuration = 0 := by
      rw [pa]; exact hA
    have hW1 : (cleanUpIfNeccissary c now).ExpiresAfterWriteDuration = 0 := by
      rw [pw]; exact hW
    have e1 : ((cleanUpIfNeccissary c now).ExpiresAfterWriteDuration == 0
        && (cleanUpIfNeccissary c now).ExpiresAfterAccessDuration == 0) = true := by
      simp [hW1, hA1]
    have e2 : ((cleanUpIfNeccissary c now).ExpiresAfterWriteDuration != 0) = false := by
      simp [hW1]
    have e3 : ((cleanUpIfNeccissary c now).ExpiresAfterAccessDuration != 0) = false := by
      simp [hA1]
    simp only [Put, e1, e2, e3, Bool.false_eq_true, if_false, if_true]
    rw [lookup_insertKey_self]

/-- Witness for C6 amended, on concrete configurations: access-only (3),
write-only (5), and no durations. -/
theorem C6_expiry_priority_witness :
    ((3 : Int) ≠ 0
      ∧ lookupKey (Put bothDurationsCache 100 "k" "v").tstamp "k" = some (100 + 3))
    ∧ ((0 : Int) = 0 ∧ (5 : Int) ≠ 0
      ∧ lookupKey (Put writeOnlyCache 100 "k" "v").tstamp "k" = some (100 + 5))
    ∧ ((0 : Int) = 0 ∧ (0 : Int) = 0
      ∧ lookupKey (Put emptyCache 100 "k" "v").tstamp "k" = some 100) :=
  ⟨⟨by decide,
      (C6_expiry_priority_amended String String bothDurationsCache 100 "k" "v").1
        (by decide)⟩,
    ⟨rfl, by decide,
      (C6_expiry_priority_amended String String writeOnlyCache 100 "k" "v").2.1 rfl
        (by decide)⟩,
    ⟨rfl, rfl,
      (C6_expiry_priority_amended String String emptyCache 100 "k" "v").2.2 rfl rfl⟩⟩

/-- C7: a loader error for key `k` is returned verbatim by
`GetWithValueLoader`, nothing is stored for `k`, a subsequent
`GetIfPresent` still misses, and the maps, size estimate and load
statistics are unchanged (only the request counter, incremented by the
embedded `GetIfPresent`, moves). -/
theorem C7_loader_error_propagation (ε α : Type) (c : PowerCache ε α)
    (now now2 : Int) (k : Key) (loader : Key → Except ε α) (e : ε)
    (hl : loader k = Except.error e)
    (hv : lookupKey c.values k = none) (ht : lookupKey c.tstamp k = none) :
    (GetWithValueLoader c now k loader).2 = Except.error e
    ∧ (GetWithValueLoader c now k loader).1.values = c.values
    ∧ (GetWithValueLoader c now k loader).1.tstamp = c.tstamp
    ∧ (GetWithValueLoader c now k loader).1.weight = c.weight
    ∧ (GetWithValueLoader c now k loader).1.cacheSizeEst = c.cacheSizeEst
    ∧ (GetWithValueLoader c now k loader).1.statLoadCount = c.statLoadCount
    ∧ (GetWithValueLoader c now k loader).1.statLoadDur = c.statLoadDur
    ∧ (GetIfPresent (GetWithValueLoader c now k loader).1 now2 k).2 = none := by
  have hexp : isKeyExpired c now k = false := by
    simp [isKeyExpired, ht]
  have hg : GetIfPresent c now k = ({ c with statReqs := c.statReqs + 1 }, none) := by
    simp [GetIfPresent, hexp, hv]
  have hload : GetWithValueLoader c now k loader
      = ({ c with statReqs := c.statReqs + 1 }, Except.error e) := by
    simp [GetWithValueLoader, hg, loadWithValueLoader, hl]
  rw [hload]
  have hexp2 : isKeyExpired { c with statReqs := c.statReqs + 1 } now2 k = false := by
    simp [isKeyExpired, ht]
  refine ⟨rfl, rfl, rfl, rfl, rfl, rfl, rfl, ?_⟩
  simp [GetIfPresent, hexp2, hv]

/-- Witness for C7: the always-failing `boomLoader` on the empty cache. -/
theorem C7_loader_error_propagation_witness :
    boomLoader "k" = Except.error "boom"
    ∧ lookupKey emptyCache.values "k" = none
    ∧ lookupKey emptyCache.tstamp "k" = none
    ∧ ((GetWithValueLoader emptyCache 0 "k" boomLoader).2 = Except.error "boom"
      ∧ (GetWithValueLoader emptyCache 0 "k" boomLoader).1.values = emptyCache.values
      ∧ (GetWithValueLoader emptyCache 0 "k" boomLoader).1.tstamp = emptyCache.tstamp
      ∧ (GetWithValueLoader emptyCache 0 "k" boomLoader).1.weight = emptyCache.weight
      ∧ (GetWithValueLoader emptyCache 0 "k" boomLoader).1.cacheSizeEst
          = emptyCache.cacheSizeEst
      ∧ (GetWithValueLoader emptyCache 0 "k" boomLoader).1.statLoadCount
          = emptyCache.statLoadCount
      ∧ (GetWithValueLoader emptyCache 0 "k" boomLoader).1.statLoadDur
          = emptyCache.statLoadDur
      ∧ (GetIfPresent (GetWithValueLoader emptyCache 0 "k" boomLoader).1 1 "k").2
          = none) :=
  ⟨rfl, rfl, rfl,
    C7_loader_error_propagation String String emptyCache 0 1 "k" boomLoader "boom"
      rfl rfl rfl⟩

/-- C8 counterexample: `Invalidate` of an absent key removes nothing yet
increments the eviction counter, so the counter does not increase by
exactly one per actually removed key. -/
theorem C8_eviction_counter_counterexample :
    emptyCache.statEvictions = 0
    ∧ (Invalidate emptyCache "x").values = emptyCache.values
    ∧ (Invalidate emptyCache "x").tstamp = emptyCache.tstamp
    ∧ (Invalidate emptyCache "x").weight = emptyCache.weight
    ∧ (Invalidate emptyCache "x").statEvictions = 1 := by
  refine ⟨rfl, by decide, by decide, by decide, rfl⟩

/-- C8 amended: the eviction counter never decreases across any sequence
of public operations; each `Invalidate` call adds exactly one whether or
not the key was present, `InvalidateAll` adds the prior entry count, and
every `CleanUp` pass adds at least one (one per sweep-removed key plus one
for the unconditional final candidate deletion). -/
theorem C8_eviction_counter_amended :
    (∀ (ε α : Type) (ops : List (CacheOp ε α)) (c : PowerCache ε α),
      c.statEvictions ≤ (List.foldl applyOp c ops).statEvictions)
    ∧ (∀ (ε α : Type) (c : PowerCache ε α) (k : Key),
      (Invalidate c k).statEvictions = c.statEvictions + 1)
    ∧ (∀ (ε α : Type) (c : PowerCache ε α),
      (InvalidateAll c).statEvictions = c.statEvictions + (c.values.length : Int))
    ∧ (∀ (ε α : Type) (c : PowerCache ε α) (now : Int),
      c.statEvictions + 1 ≤ (CleanUp c now).statEvictions) := by
  refine ⟨?_, ?_, ?_, ?_⟩
  · intro ε α ops c
    exact foldl_applyOp_evictions_le ops c
  · intro ε α c k
    rfl
  · intro ε α c
    rfl
  · intro ε α c now
    exact CleanUp_evictions_le c now

/-- C9 counterexample: `SetWeight` on an absent key inserts it into the
weight map only, so after that operation the three maps no longer have
identical key sets. -/
theorem C9_key_sets_counterexample :
    sameKeys emptyCache
    ∧ keysOf (SetWeight emptyCache "x" 5).values = []
    ∧ keysOf (SetWeight emptyCache "x" 5).weight = ["x"]
    ∧ ¬ sameKeys (SetWeight emptyCache "x" 5) := by
  refine ⟨⟨rfl, rfl⟩, rfl, rfl, ?_⟩
  intro h
  have h2 : ([] : List Key) = ["x"] := h.2
  simp at h2

/-- C9 amended: every public operation other than the per-key overrides
(`SetExpiresAt`, `SetExpiresIn`, `SetWeight`) preserves the invariant that
`values`, `tstamp` and `weight` have identical key sets. -/
theorem C9_key_sets_amended (ε α : Type) (c : PowerCache ε α) (op : CacheOp ε α)
    (h : sameKeys c) (ho : isOverride op = false) : sameKeys (applyOp c op) := by
  cases op with
  | opPut now k v => exact sameKeys_Put c now k v h
  | opGetIfPresent now k => exact sameKeys_GetIfPresent c now k h
  | opGet now k => exact sameKeys_GetWithValueLoader c now k c.ValueLoader h
  | opGetWithValueLoader now k ld => exact sameKeys_GetWithValueLoader c now k ld h
  | opLoad now k => exact sameKeys_GetWithValueLoader c now k c.ValueLoader h
  | opRefresh now k => exact sameKeys_loadWithValueLoader c now k c.ValueLoader h
  | opInvalidate k => exact sameKeys_Invalidate c k h
  | opInvalidateAll => exact sameKeys_InvalidateAll c
  | opCleanUp now => exact sameKeys_CleanUp c now h
  | opSetExpiresAt k t => simp [isOverride] at ho
  | opSetExpiresIn now k d => simp [isOverride] at ho
  | opSetWeight k w => simp [isOverride] at ho

/-- Witness for C9 amended: a `Put` on the empty cache. -/
theorem C9_key_sets_witness :
    sameKeys emptyCache
    ∧ isOverride (CacheOp.opPut 1 "a" "va" : CacheOp String String) = false
    ∧ sameKeys (applyOp emptyCache (CacheOp.opPut 1 "a" "va" : CacheOp String String)) :=
  ⟨⟨rfl, rfl⟩, rfl,
    C9_key_sets_amended String String emptyCache
      (CacheOp.opPut 1 "a" "va" : CacheOp String String) ⟨rfl, rfl⟩ rfl⟩

/-- C10: `Invalidate` on an absent key leaves all three maps unchanged
(and, being a total function, cannot panic) while still incrementing the
eviction counter by one; `CleanUp` on an empty cache removes nothing and
also increments the counter by one. -/
theorem C10_absent_invalidate_empty_cleanup (ε α : Type) (c c2 : PowerCache ε α)
    (k : Key) (now : Int)
    (hv : lookupKey c.values k = none) (ht : lookupKey c.tstamp k = none)
    (hw : lookupKey c.weight k = none)
    (h2v : c2.values = []) (h2t : c2.tstamp = []) (h2w : c2.weight = []) :
    (Invalidate c k).values = c.values
    ∧ (Invalidate c k).tstamp = c.tstamp
    ∧ (Invalidate c k).weight = c.weight
    ∧ (Invalidate c k).statEvictions = c.statEvictions + 1
    ∧ (CleanUp c2 now).values = []
    ∧ (CleanUp c2 now).tstamp = []
    ∧ (CleanUp c2 now).weight = []
    ∧ (CleanUp c2 now).statEvictions = c2.statEvictions + 1 := by
  obtain ⟨e1, e2, e3, e4⟩ := CleanUp_of_empty c2 now h2v h2t h2w
  exact ⟨eraseKey_of_lookup_none c.values k hv, eraseKey_of_lookup_none c.tstamp k ht,
    eraseKey_of_lookup_none c.weight k hw, rfl, e1, e2, e3, e4⟩

/-- Witness for C10: key `"x"` on the freshly initialised empty cache. -/
theorem C10_absent_invalidate_empty_cleanup_witness :
    lookupKey emptyCache.values "x" = none
    ∧ lookupKey emptyCache.tstamp "x" = none
    ∧ lookupKey emptyCache.weight "x" = none
    ∧ emptyCache.values = []
    ∧ ((Invalidate emptyCache "x").values = emptyCache.values
      ∧ (Invalidate emptyCache "x").tstamp = emptyCache.tstamp
      ∧ (Invalidate emptyCache "x").weight = emptyCache.weight
      ∧ (Invalidate emptyCache "x").statEvictions = emptyCache.statEvictions + 1
      ∧ (CleanUp emptyCache 0).values = []
      ∧ (CleanUp emptyCache 0).tstamp = []
      ∧ (CleanUp emptyCache 0).weight = []
      ∧ (CleanUp emptyCache 0).statEvictions = emptyCache.statEvictions + 1) :=
  ⟨rfl, rfl, rfl, rfl,
    C10_absent_invalidate_empty_cleanup String String emptyCache emptyCache "x" 0
      rfl rfl rfl rfl rfl rfl⟩
